import Mathlib

/-
Verification of the english_hash word-hashing engine (src/english_hash.py)
against its design document.

The source is Python 2.  Python integers are unbounded, so machine integers
are modelled as Nat / Int directly.  Byte strings are `List ℕ` of byte
values.  The SHA-512 primitive is out of scope (a provided black box); it is
modelled as an arbitrary function `D : List ℕ → List ℕ` from the byte
sequence fed into the accumulator so far to the current digest value, and a
digest-accumulator state is represented by the list of bytes fed so far.

The process-wide generator of Python's `random` module is modelled as a
state `RNG`: a deterministic stream of raw outputs together with a cursor.
`random.randint(0, m)` consumes one raw output and reduces it into [0, m];
`random.seed(b)` replaces the stream by one computed from the seed bytes
(the seeding map `seedFn` is an arbitrary parameter) and resets the cursor.
This captures exactly what the claims need: the generator is deterministic
from its state, re-seedable from bytes, and shared process-wide.
-/

namespace EnglishHash

/-- Exceptions the Python code can actually raise on the paths modelled
here: `TypeError` (arithmetic on `None`), `ZeroDivisionError`
(`size/block_size` with `block_size == 0`), `IOError` (`f.seek` with a
negative offset on a regular file). -/
inductive PyErr where
  | typeError
  | zeroDivisionError
  | ioError
  deriving DecidableEq, Repr

/-- State of the process-wide pseudo-random generator: an infinite stream of
raw outputs and the number of outputs consumed so far. -/
structure RNG where
  stream : ℕ → ℕ
  pos : ℕ

/-- `random.randint(0, m)`: one uniform draw from [0, m], consuming one raw
output of the generator state. -/
def RNG.randint (g : RNG) (m : ℕ) : ℕ × RNG :=
  (g.stream g.pos % (m + 1), ⟨g.stream, g.pos + 1⟩)

/-- `[random.randint(0, m) for i in range(k)]`: `k` successive draws,
threading the generator state. -/
def drawN (g : RNG) (m : ℕ) : ℕ → List ℕ × RNG
  | 0 => ([], g)
  | k + 1 =>
    let p := g.randint m
    let r := drawN p.2 m k
    (p.1 :: r.1, r.2)

/-- Python `int()` applied to a real value: truncation toward zero
(idealised over ℚ; the source computes in double-precision floats, which
agrees at every input considered in this file). -/
def pyTrunc (q : ℚ) : ℤ :=
  if 0 ≤ q then ⌊q⌋ else ⌈q⌉

/-- Lines 292-297 of src/english_hash.py: the number of blocks to inspect.

    if n_blocks is None:
        n_blocks = int(((size/block_size)*percent)/100)
    if min_blocks is not None:
        n_blocks = max(n_blocks, min_blocks)
    if max_blocks is not None:
        n_blocks = min(n_blocks, max_blocks)

`size/block_size` is Python 2 integer floor division (`Int.fdiv`); the
division by a zero `block_size` raises `ZeroDivisionError` before the
multiplication by `percent` is attempted, and multiplying by a `None`
percent raises `TypeError`. -/
def computeNBlocks (size : ℕ) (bs : ℤ) (percent : Option ℚ) (n_blocks : Option ℤ)
    (min_blocks max_blocks : Option ℤ) : Except PyErr ℤ :=
  let nb0 : Except PyErr ℤ :=
    match n_blocks with
    | some nb => .ok nb
    | none =>
      if bs = 0 then .error .zeroDivisionError
      else
        match percent with
        | none => .error .typeError
        | some p => .ok (pyTrunc (((((size : ℤ).fdiv bs : ℤ) : ℚ) * p) / 100))
  match nb0 with
  | .error e => .error e
  | .ok nb =>
    let nb1 := match min_blocks with | some mn => max nb mn | none => nb
    let nb2 := match max_blocks with | some mx => min nb1 mx | none => nb1
    .ok nb2

/-- The nominal block count as the design document words it (§4.1 step 2):
`k = floor((file_size / block_size) * percent / 100)` with `file_size /
block_size` exact (rational) division.  Stated only to compare against the
code's `computeNBlocks`. -/
def specNominalBlockCount (size bs : ℕ) (p : ℚ) : ℤ :=
  ⌊((size : ℚ) / (bs : ℚ) * p) / 100⌋

/-- Lines 300-303 of src/english_hash.py:

    block_offsets = [0] + [random.randint(0,max(0,size-block_size))
                           for i in range(n_blocks)] + [size-block_size]
    block_offsets = sorted(block_offsets)

The draws come from the generator state `g` as it stands at the call (the
ambient process-wide state).  The final appended offset `size - block_size`
is NOT clamped.  Python's `sorted` is an ascending stable sort; on integers
any ascending sort produces the same list, modelled by `insertionSort`. -/
def blockOffsets (g : RNG) (k : ℕ) (size : ℕ) (bs : ℤ) : List ℤ :=
  let m := (max 0 ((size : ℤ) - bs)).toNat
  let draws := (drawN g m k).1
  List.insertionSort (· ≤ ·) ((0 : ℤ) :: (draws.map Int.ofNat ++ [(size : ℤ) - bs]))

/-- `str(size)` in Python 2: the decimal digits of the file size as a byte
string (ASCII codes). -/
def strBytes (n : ℕ) : List ℕ :=
  (toString n).data.map Char.toNat

/-- Observable result of a successful `sha_file_random` call: the sorted
block offset sequence it read, and the primary and secondary digests. -/
structure RandomHashResult where
  offsets : List ℤ
  hash : List ℕ
  hash2 : List ℕ
  deriving DecidableEq, Repr

/-- Lines 271-316 of src/english_hash.py, `sha_file_random`, with the file
size supplied (`filesize` argument; the `os.fstat` branch is the same value
obtained through I/O).  Parameters:

* `D` — the digest primitive: current digest as a function of all bytes fed;
* `seedFn` — the generator's seeding map (`random.seed` on a byte string);
* `g` — the ambient process-wide generator state before the call;
* `content o len` — `f.seek(o); f.read(len)`;
* `shaPre` — bytes already fed into the `sha` accumulator passed in.

Control flow in source order: default the block size, compute `n_blocks`,
draw the offsets **from the ambient generator state `g`** and sort them,
feed `str(size)` into the accumulator, re-seed the generator from the
current digest (which, the draws being already taken, influences nothing
further in this call), then read every block in sorted order, feeding each
into the accumulator; finally take the primary digest and, feeding it back
in, the secondary digest.  `f.seek` on a negative offset raises `IOError`
on a regular file; since the offsets are sorted ascending, a negative
offset aborts the loop at its first iteration, so the check is hoisted
before the reads without changing the observable outcome. -/
def sha_file_random (D : List ℕ → List ℕ) (seedFn : List ℕ → ℕ → ℕ) (g : RNG)
    (content : ℤ → ℤ → List ℕ) (shaPre : List ℕ) (percent : Option ℚ)
    (n_blocks : Option ℤ) (min_blocks max_blocks : Option ℤ)
    (block_size : Option ℤ) (filesize : ℕ) : Except PyErr RandomHashResult :=
  let bs : ℤ := block_size.getD 512
  let size := filesize
  match computeNBlocks size bs percent n_blocks min_blocks max_blocks with
  | .error e => .error e
  | .ok nb =>
    let offsets := blockOffsets g nb.toNat size bs
    let fed0 := shaPre ++ strBytes size
    let _seeded : RNG := ⟨seedFn (D fed0), 0⟩
    if offsets.any (fun o => decide (o < 0)) then .error .ioError
    else
      let fed1 := offsets.foldl (fun acc o => acc ++ content o bs) fed0
      let hash := D fed1
      let hash2 := D (fed1 ++ hash)
      .ok ⟨offsets, hash, hash2⟩

/-- Variant of `sha_file_random` in the order the design document states
(§4.1 step 4, §4.2 sampled): the accumulator is fed `str(size)` and its
current digest seeds the generator FIRST, and the block offsets are then
drawn from that freshly seeded generator.  Written only to compare the
code's order against the documented order; everything after the draws is
identical. -/
def sha_file_random_seedFirst (D : List ℕ → List ℕ) (seedFn : List ℕ → ℕ → ℕ) (_g : RNG)
    (content : ℤ → ℤ → List ℕ) (shaPre : List ℕ) (percent : Option ℚ)
    (n_blocks : Option ℤ) (min_blocks max_blocks : Option ℤ)
    (block_size : Option ℤ) (filesize : ℕ) : Except PyErr RandomHashResult :=
  let bs : ℤ := block_size.getD 512
  let size := filesize
  match computeNBlocks size bs percent n_blocks min_blocks max_blocks with
  | .error e => .error e
  | .ok nb =>
    let fed0 := shaPre ++ strBytes size
    let seeded : RNG := ⟨seedFn (D fed0), 0⟩
    let offsets := blockOffsets seeded nb.toNat size bs
    if offsets.any (fun o => decide (o < 0)) then .error .ioError
    else
      let fed1 := offsets.foldl (fun acc o => acc ++ content o bs) fed0
      let hash := D fed1
      let hash2 := D (fed1 ++ hash)
      .ok ⟨offsets, hash, hash2⟩

/-- Lines 241-249 of src/english_hash.py, the inner loop of
`key_to_english` on one byte:

        while byte!=0:
            ix = ix << 1
            ix = ix | (byte&1)
            byte = byte >> 1
            n = n + 1
            if n==nbits:
                out.append(words[ix])
                n = 0
                ix = 0

Returns the word indices emitted while consuming this byte together with
the accumulator `(ix, n)` afterwards.  `ix << 1 | (byte & 1)` on naturals
is `2 * ix + byte % 2` (the or-ed bit lands in the vacated low bit). -/
def k2eByte (nbits : ℕ) (byte ix n : ℕ) : List ℕ × ℕ × ℕ :=
  if h : byte = 0 then ([], ix, n)
  else
    let ix2 := 2 * ix + byte % 2
    let n2 := n + 1
    if n2 = nbits then
      let r := k2eByte nbits (byte / 2) 0 0
      (ix2 :: r.1, r.2)
    else
      k2eByte nbits (byte / 2) ix2 n2
  termination_by byte
  decreasing_by all_goals exact Nat.div_lt_self (Nat.pos_of_ne_zero h) one_lt_two

/-- The `for char in s` loop of `key_to_english` followed by the trailing
emission `if n>0: out.append(words[ix])`, at the level of word indices. -/
def k2eGo (nbits : ℕ) : List ℕ → ℕ → ℕ → List ℕ
  | [], ix, n => if 0 < n then [ix] else []
  | byte :: rest, ix, n =>
    let r := k2eByte nbits byte ix n
    r.1 ++ k2eGo nbits rest r.2.1 r.2.2

/-- The sequence of word indices `key_to_english` uses on input `s` with a
word list of length `N`.  `nbits = int(math.floor(math.log(len(words))
/math.log(2)))` is `⌊log₂ N⌋ = Nat.log 2 N` (the source computes it in
floating point, which agrees at every list length considered here;
`len(words) = 0` would raise `ValueError` in `math.log` and is not used
by any claim). -/
def keyToEnglishIx (s : List ℕ) (N : ℕ) : List ℕ :=
  k2eGo (Nat.log 2 N) s 0 0

/-- `words[ix]` lookups for a list of indices; the first out-of-range index
raises `IndexError`, modelled by `none`. -/
def lookupWords (words : List α) : List ℕ → Option (List α)
  | [] => some []
  | i :: rest =>
    match words[i]? with
    | none => none
    | some w =>
      match lookupWords words rest with
      | none => none
      | some ws => some (w :: ws)

/-- Lines 230-253 of src/english_hash.py, `key_to_english`. -/
def key_to_english (s : List ℕ) (words : List α) : Option (List α) :=
  lookupWords words (keyToEnglishIx s words.length)

/-- Lines 329-332 of src/english_hash.py:

    padding = word_bits-((len(hash)*char_bits)%word_bits)
    padding_bytes = padding//char_bits

with `word_bits = 12`, `char_bits = 8`. -/
def paddingBytes (hashLen : ℕ) : ℕ :=
  (12 - (hashLen * 8) % 12) / 8

/-- Lines 329-336 of src/english_hash.py, the word-assembly part of
`wordhash` after the digest pair has been obtained:

    words = key_to_english(hash+hash2[0:padding_bytes], wordlist)
    if n!=None:
        words = words[0:n]

The final space-join is dropped: the claims are about the word sequence. -/
def wordhashWords (words : List α) (hash hash2 : List ℕ) (n : Option ℕ) :
    Option (List α) :=
  match key_to_english (hash ++ hash2.take (paddingBytes hash.length)) words with
  | none => none
  | some ws =>
    match n with
    | some k => some (ws.take k)
    | none => some ws

/-- A call that completed without raising an exception. -/
def isOk : Except ε α → Bool
  | .ok _ => true
  | .error _ => false

section OffsetLemmas

lemma drawN_le : ∀ (k : ℕ) (g : RNG) (m : ℕ), ∀ x ∈ (drawN g m k).1, x ≤ m := by
  intro k
  induction k with
  | zero => intro g m x hx; simp [drawN] at hx
  | succ k IH =>
    intro g m x hx
    simp only [drawN, RNG.randint, List.mem_cons] at hx
    rcases hx with rfl | hx
    · exact Nat.lt_succ_iff.mp (Nat.mod_lt _ (Nat.succ_pos m))
    · exact IH _ _ x hx

lemma blockOffsets_perm (g : RNG) (k size : ℕ) (bs : ℤ) :
    List.Perm (blockOffsets g k size bs)
      ((0 : ℤ) ::
        (((drawN g ((max 0 ((size : ℤ) - bs)).toNat) k).1.map Int.ofNat) ++
          [(size : ℤ) - bs])) := by
  unfold blockOffsets
  exact List.perm_insertionSort _ _

lemma blockOffsets_mem_zero (g : RNG) (k size : ℕ) (bs : ℤ) :
    (0 : ℤ) ∈ blockOffsets g k size bs := by
  rw [(blockOffsets_perm g k size bs).mem_iff]
  exact List.mem_cons_self _ _

lemma blockOffsets_mem_last (g : RNG) (k size : ℕ) (bs : ℤ) :
    ((size : ℤ) - bs) ∈ blockOffsets g k size bs := by
  rw [(blockOffsets_perm g k size bs).mem_iff]
  simp

lemma blockOffsets_bounds (g : RNG) (k size : ℕ) (bs : ℤ) :
    ∀ x ∈ blockOffsets g k size bs,
      min 0 ((size : ℤ) - bs) ≤ x ∧ x ≤ max 0 ((size : ℤ) - bs) := by
  intro x hx
  rw [(blockOffsets_perm g k size bs).mem_iff] at hx
  rcases List.mem_cons.mp hx with rfl | hx1
  · exact ⟨min_le_left _ _, le_max_left _ _⟩
  rcases List.mem_append.mp hx1 with h2 | h3
  · rcases List.mem_map.mp h2 with ⟨d, hd, rfl⟩
    have hdm : d ≤ (max 0 ((size : ℤ) - bs)).toNat := drawN_le k g _ d hd
    have h0 : (0 : ℤ) ≤ (d : ℤ) := Int.ofNat_nonneg d
    refine ⟨le_trans (min_le_left _ _) h0, ?_⟩
    have hcast : ((d : ℤ)) ≤ (((max 0 ((size : ℤ) - bs)).toNat : ℤ)) := by
      exact_mod_cast hdm
    rwa [Int.toNat_of_nonneg (le_max_left 0 _)] at hcast
  · have hx3 : x = (size : ℤ) - bs := by simpa using h3
    subst hx3
    exact ⟨min_le_right _ _, le_max_right _ _⟩

end OffsetLemmas

/-- C1: the claim asserts that two runs of `sha_file_random` on the same
file content and the same parameters give the same block offset sequence
and the same digest pair regardless of the ambient process-wide generator
state.  The code draws the offsets from the ambient global `random` state
at line 300 and only re-seeds at line 307, so the offsets (and hence the
bytes fed) are a function of the pre-call generator state: with identical
content and parameters `(filesize=10000, block_size=512, n_blocks=1,
min_blocks=1)`, an ambient state whose next raw output is 1 yields offsets
[0, 1, 9488] while one whose next raw output is 2 yields [0, 2, 9488].
This contradicts the code's own repeatability documentation, so the claim
is recorded as a code bug; this theorem evaluates the code at the failing
input. -/
theorem C1_offsets_depend_on_ambient_generator :
    (sha_file_random (fun l => l) (fun _ _ => 0) ⟨fun _ => 1, 0⟩ (fun _ _ => [])
        [] none (some 1) (some 1) none (some 512) 10000).toOption.map
        RandomHashResult.offsets ≠
      (sha_file_random (fun l => l) (fun _ _ => 0) ⟨fun _ => 2, 0⟩ (fun _ _ => [])
        [] none (some 1) (some 1) none (some 512) 10000).toOption.map
        RandomHashResult.offsets := by
  decide

/-- C2: the claim asserts that the offsets are drawn from the generator
after it has been seeded with the digest of the size-fed accumulator.  In
the code the draws (line 300) precede both `sha.update(str(size))` (line
306) and `random.seed(sha.digest())` (line 307), so the seeded generator
is never consulted for the offsets of this call.  With an ambient state
whose next raw output is 1 and a seeding map whose stream outputs 7, the
code produces offsets [0, 1, 9488] while the documented order
(`sha_file_random_seedFirst`) produces [0, 7, 9488]. -/
theorem C2_offsets_drawn_before_seeding :
    (sha_file_random (fun _ => [3]) (fun _ _ => 7) ⟨fun _ => 1, 0⟩ (fun _ _ => [])
        [] none (some 1) (some 1) none (some 512) 10000).toOption.map
        RandomHashResult.offsets ≠
      (sha_file_random_seedFirst (fun _ => [3]) (fun _ _ => 7) ⟨fun _ => 1, 0⟩
        (fun _ _ => []) [] none (some 1) (some 1) none (some 512) 10000).toOption.map
        RandomHashResult.offsets := by
  decide

/-- C5 counterexample: the claim asserts every element of the block offset
sequence is non-negative and at most `max 0 (file_size - block_size)`, the
appended last offset being clamped to ≥ 0.  The code appends
`size - block_size` without clamping (line 300), so for `file_size = 100`,
`block_size = 512`, `n_blocks = 0` the sequence is `[-412, 0]` and the
element `-412` violates the claimed bounds. -/
theorem C5_last_offset_not_clamped_cex :
    ¬ (∀ x ∈ blockOffsets ⟨fun _ => 0, 0⟩ 0 100 512,
        0 ≤ x ∧ x ≤ max 0 (((100 : ℕ) : ℤ) - 512)) := by
  decide

/-- C5 amended: every element of the block offset sequence lies between
`min 0 (file_size - block_size)` and `max 0 (file_size - block_size)`: the
prepended 0 and the random draws are within `[0, max 0 (file_size -
block_size)]`, but the unconditionally appended last offset is
`file_size - block_size` without clamping, so it is negative exactly when
`file_size < block_size`. -/
theorem C5_offset_bounds_amended (g : RNG) (k size : ℕ) (bs : ℤ) :
    ∀ x ∈ blockOffsets g k size bs,
      min 0 ((size : ℤ) - bs) ≤ x ∧ x ≤ max 0 ((size : ℤ) - bs) :=
  blockOffsets_bounds g k size bs

theorem C5_offset_bounds_amended_witness :
    (-412 : ℤ) ∈ blockOffsets ⟨fun _ => 0, 0⟩ 0 100 512 ∧
      (min 0 (((100 : ℕ) : ℤ) - 512) ≤ -412 ∧
        (-412 : ℤ) ≤ max 0 (((100 : ℕ) : ℤ) - 512)) :=
  ⟨by decide, C5_offset_bounds_amended ⟨fun _ => 0, 0⟩ 0 100 512 (-412) (by decide)⟩

/-- C7 counterexample: the claim asserts every sampled-hashing call with
`block_size ≤ 0` fails with an `InvalidArgument` error.  The code performs
no validation of `block_size`: with `block_size = 0`, `n_blocks = 0`,
`min_blocks = 0` and `filesize = 7` the call completes normally, reading
the zero-length blocks at offsets 0 and 7 and returning a digest pair. -/
theorem C7_no_validation_cex :
    sha_file_random (fun _ => []) (fun _ _ => 0) ⟨fun _ => 0, 0⟩ (fun _ _ => [])
        [] none (some 0) (some 0) none (some 0) 7 =
      .ok ⟨[0, 7], [], []⟩ := by
  rfl

/-- C7 amended: `sha_file_random` never raises an `InvalidArgument`-style
error for a non-positive block size.  When `n_blocks` is given, any call
with `block_size ≤ 0` completes without error (the blocks read are empty
or, for a negative size, the tail of the file); when `percent` is given
instead and `block_size = 0`, the call fails with `ZeroDivisionError`
from `size/block_size`, not with an invalid-argument error. -/
theorem C7_no_validation_amended :
    (∀ (D : List ℕ → List ℕ) (sf : List ℕ → ℕ → ℕ) (g : RNG)
        (c : ℤ → ℤ → List ℕ) (pre : List ℕ) (nb : ℤ) (mn mx : Option ℤ)
        (bs : ℤ) (size : ℕ), bs ≤ 0 →
        isOk (sha_file_random D sf g c pre none (some nb) mn mx (some bs) size) =
          true) ∧
      (∀ (D : List ℕ → List ℕ) (sf : List ℕ → ℕ → ℕ) (g : RNG)
          (c : ℤ → ℤ → List ℕ) (pre : List ℕ) (p : ℚ) (mn mx : Option ℤ)
          (size : ℕ),
          sha_file_random D sf g c pre (some p) none mn mx (some (0 : ℤ)) size =
            .error .zeroDivisionError) := by
  constructor
  · intro D sf g c pre nb mn mx bs size hbs
    have hge : (0 : ℤ) ≤ (size : ℤ) - bs := by
      have : (0 : ℤ) ≤ (size : ℤ) := Int.ofNat_nonneg size
      omega
    have hany :
        (blockOffsets g (match mn with | some v => max nb v | none => nb).toNat
              size bs).any (fun o => decide (o < 0)) = false ∨ True := Or.inr trivial
    simp only [sha_file_random, computeNBlocks, Option.getD]
    have hfalse :
        ∀ (k : ℕ), (blockOffsets g k size bs).any (fun o => decide (o < 0)) = false := by
      intro k
      rw [List.any_eq_false]
      intro x hx
      have hb := (blockOffsets_bounds g k size bs x hx).1
      have hmin : min 0 ((size : ℤ) - bs) = 0 := min_eq_left hge
      rw [hmin] at hb
      simp only [decide_eq_true_eq]
      omega
    simp only [hfalse, Bool.false_eq_true, if_false, isOk]
  · intro D sf g c pre p mn mx size
    simp [sha_file_random, computeNBlocks]

theorem C7_no_validation_amended_witness :
    isOk (sha_file_random (fun _ => []) (fun _ _ => 0) ⟨fun _ => 0, 0⟩
        (fun _ _ => []) [] none (some 5) none none (some (-3)) 10) = true ∧
      sha_file_random (fun _ => []) (fun _ _ => 0) ⟨fun _ => 0, 0⟩
          (fun _ _ => []) [] (some 50) none none none (some (0 : ℤ)) 10 =
        .error .zeroDivisionError :=
  ⟨C7_no_validation_amended.1 (fun _ => []) (fun _ _ => 0) ⟨fun _ => 0, 0⟩
      (fun _ _ => []) [] 5 none none (-3) 10 (by norm_num),
    C7_no_validation_amended.2 (fun _ => []) (fun _ _ => 0) ⟨fun _ => 0, 0⟩
      (fun _ _ => []) [] 50 none none 10⟩

/-- C9: offsets 0 and `file_size - block_size` are always members of the
block offset sequence, for every generator state, block count, file size
and block size (the code prepends and appends them unconditionally before
sorting); and in the concrete case `block_count = 0`, `min_blocks = 0`,
`max_blocks` unset, `file_size = 10000`, `block_size = 512`, the clamped
count is 0 and the sequence is exactly `[0, 9488]`. -/
theorem C9_first_and_last_block_present :
    (∀ (g : RNG) (k size : ℕ) (bs : ℤ),
        (0 : ℤ) ∈ blockOffsets g k size bs ∧
          ((size : ℤ) - bs) ∈ blockOffsets g k size bs) ∧
      computeNBlocks 10000 512 none (some 0) (some 0) none = .ok 0 ∧
      ∀ g : RNG, blockOffsets g 0 10000 512 = [0, 9488] := by
  refine ⟨fun g k size bs => ⟨blockOffsets_mem_zero g k size bs,
    blockOffsets_mem_last g k size bs⟩, by rfl, ?_⟩
  intro g
  simp only [blockOffsets, drawN, List.map_nil, List.nil_append]
  decide

/-- C6 counterexample: the claim computes the nominal block count with an
exact division `file_size / block_size`.  The source is Python 2, where
`size/block_size` on integers is floor division: for `file_size = 1000`,
`block_size = 512`, `percent = 60` the code computes
`int((1000//512)*60/100) = int(0.6) = 0`, while the claimed formula gives
`floor((1000/512)*60/100) = floor(1.171875) = 1`. -/
theorem C6_integer_division_cex :
    computeNBlocks 1000 512 (some 60) none none none = .ok 0 ∧
      specNominalBlockCount 1000 512 60 = 1 := by
  constructor
  · have h1 : (((1000 : ℕ) : ℤ)).fdiv 512 = 1 := by decide
    simp only [computeNBlocks, h1, pyTrunc]
    norm_num
  · simp only [specNominalBlockCount]
    norm_num

/-- C6 amended: when `percent` is given and `block_count` is not, the code
computes `k = int(((size/block_size)*percent)/100)` with Python 2 integer
floor division of `size` by `block_size`; for non-negative size, positive
block size, and non-negative percent this equals
`⌊(⌊size / block_size⌋ * percent) / 100⌋` (truncation toward zero agreeing
with floor on the non-negative value), not the exact-division formula. -/
theorem C6_floor_division_amended (size : ℕ) (bs : ℤ) (p : ℚ)
    (hbs : 0 < bs) (hp : 0 ≤ p) :
    computeNBlocks size bs (some p) none none none =
      .ok ⌊((((size : ℤ).fdiv bs : ℤ) : ℚ) * p) / 100⌋ := by
  have hbs0 : bs ≠ 0 := ne_of_gt hbs
  have hq : (0 : ℚ) ≤ ((((size : ℤ).fdiv bs : ℤ) : ℚ) * p) / 100 := by
    apply div_nonneg _ (by norm_num)
    apply mul_nonneg _ hp
    have h : (0 : ℤ) ≤ (size : ℤ).fdiv bs :=
      Int.fdiv_nonneg (Int.ofNat_nonneg size) (le_of_lt hbs)
    exact_mod_cast h
  simp only [computeNBlocks, pyTrunc, if_neg hbs0, if_pos hq]

theorem C6_floor_division_amended_witness :
    computeNBlocks 1000 512 (some 60) none none none =
      .ok ⌊(((((1000 : ℕ) : ℤ).fdiv 512 : ℤ) : ℚ) * 60) / 100⌋ :=
  C6_floor_division_amended 1000 512 60 (by norm_num) (by norm_num)

section EncoderLemmas

lemma log2_two : Nat.log 2 2 = 1 := by
  have h := Nat.log_pow one_lt_two 1
  norm_num at h
  exact h

lemma k2eByte_zero (nbits ix n : ℕ) : k2eByte nbits 0 ix n = ([], ix, n) := by
  rw [k2eByte.eq_def]
  simp

lemma k2eByte_emit (nbits byte ix n : ℕ) (h0 : ¬ byte = 0) (hn2 : n + 1 = nbits) :
    k2eByte nbits byte ix n =
      ((2 * ix + byte % 2) :: (k2eByte nbits (byte / 2) 0 0).1,
        (k2eByte nbits (byte / 2) 0 0).2) := by
  rw [k2eByte.eq_def, dif_neg h0]
  simp only [if_pos hn2]

lemma k2eByte_step (nbits byte ix n : ℕ) (h0 : ¬ byte = 0) (hn2 : ¬ (n + 1 = nbits)) :
    k2eByte nbits byte ix n = k2eByte nbits (byte / 2) (2 * ix + byte % 2) (n + 1) := by
  rw [k2eByte.eq_def, dif_neg h0]
  simp only [if_neg hn2]

/-- Invariant of the per-byte loop: starting from an accumulator of `n`
bits (`ix < 2^n`) with `n < nbits`, every emitted index has fewer than
`nbits + 1` bits, and the loop leaves the accumulator in the same shape. -/
lemma k2eByte_bounds (nbits : ℕ) (hnb : 0 < nbits) :
    ∀ byte ix n, ix < 2 ^ n → n < nbits →
      (∀ i ∈ (k2eByte nbits byte ix n).1, i < 2 ^ nbits) ∧
      (k2eByte nbits byte ix n).2.1 < 2 ^ (k2eByte nbits byte ix n).2.2 ∧
      (k2eByte nbits byte ix n).2.2 < nbits := by
  intro byte
  induction byte using Nat.strong_induction_on with
  | _ byte IH =>
    intro ix n hix hn
    by_cases h0 : byte = 0
    · subst h0
      rw [k2eByte_zero]
      exact ⟨fun i hi => absurd hi (List.not_mem_nil i), hix, hn⟩
    · have hlt : byte / 2 < byte := Nat.div_lt_self (Nat.pos_of_ne_zero h0) one_lt_two
      have hb2 : byte % 2 < 2 := Nat.mod_lt _ (by norm_num)
      have hpow : (2 : ℕ) ^ (n + 1) = 2 * 2 ^ n := by rw [pow_succ]; ring
      have hix2 : 2 * ix + byte % 2 < 2 ^ (n + 1) := by omega
      by_cases hn2 : n + 1 = nbits
      · rw [k2eByte_emit nbits byte ix n h0 hn2]
        have hr := IH (byte / 2) hlt 0 0 (by norm_num) hnb
        refine ⟨?_, hr.2⟩
        intro i hi
        rcases List.mem_cons.mp hi with rfl | hi2
        · rw [← hn2]; exact hix2
        · exact hr.1 i hi2
      · rw [k2eByte_step nbits byte ix n h0 hn2]
        have hn3 : n + 1 < nbits := lt_of_le_of_ne hn hn2
        exact IH (byte / 2) hlt (2 * ix + byte % 2) (n + 1) hix2 hn3

/-- Invariant of the whole encoding loop including the trailing emission:
every index emitted is below `2 ^ nbits`. -/
lemma k2eGo_bounds (nbits : ℕ) (hnb : 0 < nbits) :
    ∀ (s : List ℕ) (ix n : ℕ), ix < 2 ^ n → n < nbits →
      ∀ i ∈ k2eGo nbits s ix n, i < 2 ^ nbits := by
  intro s
  induction s with
  | nil =>
    intro ix n hix hn i hi
    simp only [k2eGo] at hi
    by_cases h : 0 < n
    · rw [if_pos h] at hi
      have hiix : i = ix := by simpa using hi
      subst hiix
      exact lt_of_lt_of_le hix (Nat.pow_le_pow_right (by norm_num) (le_of_lt hn))
    · rw [if_neg h] at hi
      exact absurd hi (List.not_mem_nil i)
  | cons b rest IH =>
    intro ix n hix hn i hi
    simp only [k2eGo] at hi
    rcases List.mem_append.mp hi with h1 | h2
    · exact (k2eByte_bounds nbits hnb b ix n hix hn).1 i h1
    · have hr := k2eByte_bounds nbits hnb b ix n hix hn
      exact IH _ _ hr.2.1 hr.2.2 i h2

/-- A run of `0x00` bytes contributes nothing: the `while byte != 0` loop
never executes, so the accumulator is untouched and no index is
emitted. -/
lemma k2eGo_replicate_zero (nbits : ℕ) :
    ∀ (m ix n : ℕ), k2eGo nbits (List.replicate m 0) ix n =
      (if 0 < n then [ix] else []) := by
  intro m
  induction m with
  | zero => intro ix n; simp only [List.replicate, k2eGo]
  | succ m IH =>
    intro ix n
    simp only [List.replicate, k2eGo, k2eByte_zero]
    exact IH ix n

end EncoderLemmas

/-- C3: the claim asserts the encoder consumes exactly 8 bits from every
input byte, giving `ceil(len(s)*8/12)` words.  The code's inner loop runs
`while byte != 0`, consuming bits only up to the highest set bit of each
byte: the single byte `0x00` contributes no bits at all, so
`key_to_english` returns 0 words where the claim requires
`ceil(8/12) = 1`.  The module docstring's promise that 43 complete words
can always be formed needs the fixed 8-bit behaviour, so this is recorded
as a code bug; this theorem evaluates the code at the failing input. -/
theorem C3_zero_byte_yields_no_word :
    key_to_english [0] (List.replicate 4096 "w") = some [] ∧
      (1 * 8 + 11) / 12 = 1 := by
  constructor
  · simp only [key_to_english, keyToEnglishIx, k2eGo, k2eByte_zero]
    norm_num [lookupWords]
  · norm_num

/-- C4: the claim asserts that for a 64-byte primary digest exactly one
byte of the secondary digest is appended and a request for 43 words
returns exactly 43 words.  The code computes `padding = 12 - 512 % 12 = 4`
bits and `padding_bytes = 4 // 8 = 0`, appending no secondary byte at all
(contradicting the `wordhash` docstring, which says one extra byte is
included); and through the `while byte != 0` loop the all-zero 64-byte
digest contributes no bits, so requesting `n = 43` returns 0 words, not
43. -/
theorem C4_no_padding_byte_for_64_byte_digest :
    paddingBytes 64 = 0 ∧
      wordhashWords (List.replicate 4096 "w") (List.replicate 64 0)
          (List.replicate 64 2) (some 43) = some [] ∧
      ([] : List String).length ≠ 43 := by
  refine ⟨rfl, ?_, by simp⟩
  have ppad : paddingBytes 64 = 0 := rfl
  simp only [wordhashWords, key_to_english, List.length_replicate, ppad,
    List.take_zero, List.append_nil, keyToEnglishIx, k2eGo_replicate_zero]
  norm_num [lookupWords]

/-- C8: encoding is deterministic, requesting `max_words = k` equals
taking the first `k` words of the full encoded sequence (the code slices
`words[0:n]` after encoding), and hence a request for `k` words is a
prefix of the request for `k + 1` words whenever both succeed. -/
theorem C8_determinism_and_prefix_stability {α : Type} (words : List α)
    (h h2 : List ℕ) (k : ℕ) :
    wordhashWords words h h2 none = wordhashWords words h h2 none ∧
      wordhashWords words h h2 (some k) =
        (wordhashWords words h h2 none).map (fun ws => ws.take k) ∧
      ∀ ws1 ws2, wordhashWords words h h2 (some k) = some ws1 →
        wordhashWords words h h2 (some (k + 1)) = some ws2 → ws1 <+: ws2 := by
  refine ⟨rfl, ?_, ?_⟩
  · cases he : key_to_english (h ++ h2.take (paddingBytes h.length)) words with
    | none => simp [wordhashWords, he]
    | some ws => simp [wordhashWords, he]
  · intro ws1 ws2 h1 h2'
    cases he : key_to_english (h ++ h2.take (paddingBytes h.length)) words with
    | none => simp [wordhashWords, he] at h1
    | some ws =>
      simp only [wordhashWords, he, Option.some.injEq] at h1 h2'
      have h3 : (ws.take (k + 1)).take k = ws.take k := by
        rw [List.take_take, min_eq_left (Nat.le_succ k)]
      rw [← h1, ← h2', ← h3]
      exact List.take_prefix k (ws.take (k + 1))

theorem C8_determinism_and_prefix_stability_witness :
    wordhashWords ["a", "b"] [1] [3] (some 1) = some ["b"] ∧
      (["b"] : List String) <+: ["b"] := by
  have hx : keyToEnglishIx [1] 2 = [1] := by
    simp [keyToEnglishIx, log2_two, k2eGo, k2eByte]
  have hk : key_to_english ([1] ++ List.take (paddingBytes 1) [3])
      (["a", "b"] : List String) = some ["b"] := by
    simp only [key_to_english]
    rw [show (["a", "b"] : List String).length = 2 from rfl]
    rw [show ([1] ++ List.take (paddingBytes 1) [3] : List ℕ) = [1] from rfl, hx]
    rfl
  have e1 : wordhashWords ["a", "b"] [1] [3] (some 1) = some ["b"] := by
    simp only [wordhashWords]
    rw [show List.take (paddingBytes ([1] : List ℕ).length) [3] =
      List.take (paddingBytes 1) [3] from rfl, hk]
    rfl
  have e2 : wordhashWords ["a", "b"] [1] [3] (some 2) = some ["b"] := by
    simp only [wordhashWords]
    rw [show List.take (paddingBytes ([1] : List ℕ).length) [3] =
      List.take (paddingBytes 1) [3] from rfl, hk]
    rfl
  exact ⟨e1,
    (C8_determinism_and_prefix_stability ["a", "b"] [1] [3] 1).2.2 ["b"] ["b"] e1 e2⟩

/-- C10 counterexample: the claim asserts that for every word list of
length `N ≥ 1` all indices are below `2 ^ ⌊log₂ N⌋` and indexing never
fails.  For `N = 1` the code sets `nbits = 0`, so the counter `n` (which
only ever increases from 1 inside the loop) never equals `nbits`, the
accumulator is never reset, and the trailing emission produces index 1 on
input byte `0x01`: not below `2 ^ 0 = 1`, and `words[1]` on a one-word
list fails with `IndexError` (modelled as `none`). -/
theorem C10_singleton_vocabulary_cex :
    keyToEnglishIx [1] 1 = [1] ∧ ¬ (1 < 2 ^ Nat.log 2 1) ∧
      key_to_english [1] ["a"] = none := by
  refine ⟨?_, ?_, ?_⟩
  · simp [keyToEnglishIx, Nat.log_one_right, k2eGo, k2eByte]
  · simp [Nat.log_one_right]
  · simp only [key_to_english]
    rw [show (["a"] : List String).length = 1 from rfl]
    rw [show keyToEnglishIx [1] 1 = [1] from by
      simp [keyToEnglishIx, Nat.log_one_right, k2eGo, k2eByte]]
    rfl

/-- C10 amended: for every word list of length `N ≥ 2`, every index the
encoder uses (full groups and the trailing partial group alike) is
strictly below `2 ^ ⌊log₂ N⌋ ≤ N`, so vocabulary indexing stays in
bounds. -/
theorem C10_index_bounds_amended (s : List ℕ) (N : ℕ) (hN : 2 ≤ N) :
    ∀ i ∈ keyToEnglishIx s N, i < 2 ^ Nat.log 2 N ∧ i < N := by
  have hnb : 0 < Nat.log 2 N := Nat.log_pos one_lt_two hN
  intro i hi
  have h1 : i < 2 ^ Nat.log 2 N :=
    k2eGo_bounds (Nat.log 2 N) hnb s 0 0 (by norm_num) hnb i hi
  exact ⟨h1, lt_of_lt_of_le h1 (Nat.pow_log_le_self 2 (by omega))⟩

theorem C10_index_bounds_amended_witness :
    1 ∈ keyToEnglishIx [1] 2 ∧ (1 < 2 ^ Nat.log 2 2 ∧ 1 < 2) := by
  have hmem : 1 ∈ keyToEnglishIx [1] 2 := by
    rw [show keyToEnglishIx [1] 2 = [1] from by
      simp [keyToEnglishIx, log2_two, k2eGo, k2eByte]]
    exact List.mem_singleton.mpr rfl
  exact ⟨hmem, C10_index_bounds_amended [1] 2 (by norm_num) 1 hmem⟩

end EnglishHash
